import Mathlib

/-!
Verification development for `get_portraits.py`, a batch downloader of
U.S. Congress member portraits from Wikipedia.

The Python source is shallowly embedded: the remote API responses, the
markup-library parse results and the streamed image bytes are inputs
(oracles) to the embedded functions, and the functions themselves are
translated line by line from the source.  Python exceptions are modelled
with `Except PyError`.
-/

set_option autoImplicit false

namespace GetPortraits

/-- Kinds of Python exceptions the script can raise or observe. -/
inductive PyError where
  | assertionError
  | valueError
  | indexError
  | httpError
  | requestError
  | streamError
  deriving DecidableEq, Repr

/-- `true` exactly when a pipeline step raised (the script's bare
`except:` treats every exception alike). -/
def isErr {α : Type} : Except PyError α → Bool
  | .error _ => true
  | .ok _ => false

/-! ## XML response model

`lxml.etree` trees are modelled flatly: an XML document is the list of
its elements in document (pre-)order, each element carrying its tree
position `path` (the child-index route from the root), its tag, its
attributes and its text.  The XPath expressions used by the source —
`//rev`, `//normalized/n`, `//page[@title="…"]` and `//ii` — are
translated as filters over that list. -/

structure XElem where
  path : List Nat
  tag : String
  attrs : List (String × String)
  text : Option String
  deriving DecidableEq, Repr

abbrev XDoc := List XElem

/-- `element.get(key)` of lxml: the attribute's value, or `None`. -/
def getAttr (e : XElem) (k : String) : Option String :=
  (e.attrs.find? (fun p => p.1 = k)).map (fun p => p.2)

/-- XPath `//t`: every element of the document with tag `t`, in
document order.  (lxml resolves `//` from the document root even when
the expression is evaluated on a non-root element.) -/
def xpathAll (d : XDoc) (t : String) : List XElem :=
  d.filter (fun e => e.tag = t)

/-- XPath `//ptag/t`: every element with tag `t` whose parent element
has tag `ptag`. -/
def xpathChildOf (d : XDoc) (ptag t : String) : List XElem :=
  d.filter (fun e =>
    e.tag = t ∧ (d.filter (fun p => p.path = e.path.dropLast)).any (fun p => p.tag = ptag))

/-! ## Markup Reader: `wiki_query_article`

The network call `wiki_query(**params)` is exterior; the parsed XML
response is the function's input.  The source reads `revs =
tree.xpath('//rev')` and returns `revs[-1].text`; indexing an empty
list raises `IndexError`. -/

def wiki_query_article (d : XDoc) : Except PyError (Option String) :=
  match (xpathAll d "rev").getLast? with
  | none => .error .indexError
  | some r => .ok r.text

/-! ## Image URL Resolver: `wiki_query_image_url` -/

/-- The `response_title` loop of `wiki_query_image_url`: start from the
query title and, for each `//normalized/n` node whose `from` attribute
equals the query title, replace it by that node's `to` attribute (a
missing `to` attribute is Python `None`, which the later
`'//page[@title="{}"]'.format(...)` renders as the string `"None"`). -/
def normStep (query_title rt : String) (n : XElem) : String :=
  if getAttr n "from" = some query_title then (getAttr n "to").getD "None" else rt

def responseTitleOf (d : XDoc) (query_title : String) : String :=
  (xpathChildOf d "normalized" "n").foldl (normStep query_title) query_title

/-- XPath `//page[@title="t"]`. -/
def pagesTitled (d : XDoc) (t : String) : List XElem :=
  d.filter (fun e => e.tag = "page" ∧ getAttr e "title" = some t)

def wiki_query_image_url (file_name : String) (d : XDoc) : Except PyError (Option String) :=
  match pagesTitled d (responseTitleOf d ("File:" ++ file_name)) with
  | [_page] =>
    -- `page.xpath('//ii')` — the path is absolute, so it searches the
    -- whole response document, not just under `page`.
    match xpathAll d "ii" with
    | [i] => .ok (getAttr i "url")
    | _ => .error .assertionError
  | _ => .error .assertionError

/-- Image-info elements lying under (strictly inside) a given page
element — the reading used by the specification's invariant. -/
def iiUnder (d : XDoc) (p : XElem) : List XElem :=
  (xpathAll d "ii").filter (fun e => p.path.isPrefixOf e.path && !(e.path = p.path : Bool))

/-- Revision elements lying under a page element carrying the given
title — the specification's notion of a title that resolved. -/
def revsOfTitle (d : XDoc) (t : String) : List XElem :=
  (xpathAll d "rev").filter (fun r =>
    (pagesTitled d t).any (fun p => p.path.isPrefixOf r.path && !(r.path = p.path : Bool)))

/-! ## Infobox Resolver: `wiki_read_officeholder_image_name`

`mwparserfromhell` templates are modelled as a name plus a parameter
list; the function's input is the template list produced by
`parse(page_text).filter_templates()`. -/

/-- Python's `str.strip()`: drop leading and trailing whitespace. -/
def pyStrip (s : String) : String :=
  String.mk (((s.data.dropWhile Char.isWhitespace).reverse.dropWhile Char.isWhitespace).reverse)

/-- Python's `str.lower()` (ASCII case folding, which covers every
name the script compares). -/
def pyLower (s : String) : String :=
  String.mk (s.data.map Char.toLower)

/-- Code-point-wise lexicographic comparison, as Python compares
strings. -/
def charListLe : List Char → List Char → Bool
  | [], _ => true
  | _ :: _, [] => false
  | a :: as, b :: bs =>
    if a.toNat < b.toNat then true
    else if b.toNat < a.toNat then false
    else charListLe as bs

def pyStrLe (a b : String) : Bool := charListLe a.data b.data

structure WTemplate where
  name : String
  params : List (String × String)
  deriving DecidableEq, Repr

def infoboxNames : List String :=
  ["infobox officeholder", "infobox senator", "infobox congressman",
   "infobox politician", "infobox politician (general)"]

/-- The filter predicate `template.name.strip().lower() in (...)`. -/
def isInfobox (t : WTemplate) : Bool :=
  infoboxNames.contains (pyLower (pyStrip t.name))

/-- `Template.get(name)` of mwparserfromhell: scan the parameters from
the last to the first and return the first whose stripped name matches;
raise `ValueError` when none does. -/
def templateGet (t : WTemplate) (name : String) : Option (String × String) :=
  t.params.reverse.find? (fun p => pyStrip p.1 = name)

def wiki_read_officeholder_image_name (templates : List WTemplate) :
    Except PyError String :=
  match templates.filter isInfobox with
  | [infobox] =>
    match templateGet infobox "image" with
    | some p => .ok (pyStrip p.2)
    | none => .error .valueError
  | _ => .error .assertionError

/-! ## Roster Extractor: the `RE_SORTNAME` pattern

`RE_SORTNAME = re.compile('\{\{sortname\|(?P<firstname>.*?)\|(?P<lastname>.*?)(?P<articlename>\|.*?)?\}\}')`

The matcher below is a direct operational translation of Python's
backtracking semantics for this one pattern: `.` matches any character
except a newline; `.*?` is lazy (shortest first); `(...)?` is greedy
(group present tried before absent); `findall` scans left to right,
emits non-overlapping leftmost matches, and renders a non-participating
group as the empty string. -/

/-- The literal `\{\{sortname\|` head of the pattern. -/
def sortnameLit : List Char :=
  ['\x7b', '\x7b', 's', 'o', 'r', 't', 'n', 'a', 'm', 'e', '|']

/-- Match a literal character sequence at the head of the input,
returning the remainder. -/
def stripLit : List Char → List Char → Option (List Char)
  | [], s => some s
  | _ :: _, [] => none
  | c :: cs, x :: xs => if x = c then stripLit cs xs else none

/-- `(?P<firstname>.*?)\|`: lazily take characters (no newline) up to
the first `|`; fail if a newline or the end of input comes first. -/
def takeUntilPipe : List Char → Option (List Char × List Char)
  | [] => none
  | c :: cs =>
    if c = '|' then some ([], cs)
    else if c = '\n' then none
    else (takeUntilPipe cs).map (fun p => (c :: p.1, p.2))

/-- `.*?\}\}` inside the optional group: lazily take characters (no
newline) up to the first `}}`. -/
def findCloseBraces : List Char → Option (List Char × List Char)
  | [] => none
  | c :: cs =>
    if c = '\x7d' then
      match cs with
      | c2 :: rest =>
        if c2 = '\x7d' then some ([], rest)
        else (findCloseBraces cs).map (fun p => (c :: p.1, p.2))
      | [] => none
    else if c = '\n' then none
    else (findCloseBraces cs).map (fun p => (c :: p.1, p.2))

/-- `(?P<lastname>.*?)(?P<articlename>\|.*?)?\}\}`: grow `lastname`
lazily; at each position first try the optional group (which must start
with `|` and then reach `}}`), then a bare `}}`, then extend
`lastname` by one non-newline character.  Returns
(lastname, articlename?, rest). -/
def matchAfterSecondPipe : List Char → Option (List Char × Option (List Char) × List Char)
  | [] => none
  | c :: cs =>
    if c = '|' then
      match findCloseBraces cs with
      | some p => some ([], some ('|' :: p.1), p.2)
      | none => (matchAfterSecondPipe cs).map (fun q => ('|' :: q.1, q.2))
    else if c = '\x7d' then
      match cs with
      | c2 :: rest =>
        if c2 = '\x7d' then some ([], none, rest)
        else (matchAfterSecondPipe cs).map (fun q => (c :: q.1, q.2))
      | [] => none
    else if c = '\n' then none
    else (matchAfterSecondPipe cs).map (fun q => (c :: q.1, q.2))

/-- Attempt a match of the whole pattern anchored at the head of the
input; on success return (firstname, lastname, articlename?, rest). -/
def tryMatchAt (s : List Char) : Option (List Char × List Char × Option (List Char) × List Char) :=
  match stripLit sortnameLit s with
  | none => none
  | some r0 =>
    match takeUntilPipe r0 with
    | none => none
    | some fp =>
      match matchAfterSecondPipe fp.2 with
      | none => none
      | some lar => some (fp.1, lar.1, lar.2.1, lar.2.2)

/-- The `findall` scan, fuelled by the input length (each step consumes
at least one character, so the fuel never runs out on real inputs). -/
def scanGo : Nat → List Char → List (List Char × List Char × Option (List Char))
  | 0, _ => []
  | _ + 1, [] => []
  | n + 1, c :: cs =>
    match tryMatchAt (c :: cs) with
    | some r => (r.1, r.2.1, r.2.2.1) :: scanGo n r.2.2.2
    | none => scanGo n cs

/-- All matches of `RE_SORTNAME` in the text, leftmost and
non-overlapping, with the raw (optional) third group. -/
def scanSortname (s : List Char) : List (List Char × List Char × Option (List Char)) :=
  scanGo s.length s

/-- `RE_SORTNAME.findall(text)`: tuples of the three groups, a
non-participating `articlename` group rendered as `''`. -/
def findallSortname (s : String) : List (String × String × String) :=
  (scanSortname s.data).map (fun t =>
    (String.mk t.1, String.mk t.2.1,
     match t.2.2 with
     | none => ""
     | some a => String.mk a))

/-! ## Well-formed sortname citations (specification side)

The specification speaks of "correctly formed sortname citations": a
`{{sortname|first|last}}` or `{{sortname|first|last|title}}` template
whose arguments are plain text.  An argument character is anything but
`|`, `{`, `}` and a newline. -/

def isArgChar (c : Char) : Bool :=
  !(c = '|' || c = '\x7b' || c = '\x7d' || c = '\n')

/-- Skip a maximal run of argument characters. -/
def splitArg (s : List Char) : List Char × List Char :=
  (s.takeWhile isArgChar, s.dropWhile isArgChar)

/-- Expect a literal `}}` and return the remainder. -/
def wfClose : List Char → Option (List Char)
  | c2 :: c3 :: r =>
    if c2 = '\x7d' then (if c3 = '\x7d' then some r else none) else none
  | _ => none

/-- Recognise a correctly formed sortname citation at the head of the
input and return the remainder after it: the literal head, a first
argument, `|`, a second argument, then either `}}` directly or `|`, a
third argument and `}}`. -/
def wfCitationRest (s : List Char) : Option (List Char) :=
  match stripLit sortnameLit s with
  | none => none
  | some s1 =>
    match (splitArg s1).2 with
    | [] => none
    | c1 :: r2 =>
      if c1 = '|' then
        match (splitArg r2).2 with
        | [] => none
        | c2 :: r3 =>
          if c2 = '\x7d' then wfClose (c2 :: r3)
          else if c2 = '|' then wfClose (splitArg r3).2
          else none
      else none

/-- Fuelled scan counting the correctly formed citations of a text:
count one and skip past it where a citation starts, else advance one
character.  (Correctly formed citations cannot overlap.) -/
def countWFGo : Nat → List Char → Nat
  | 0, _ => 0
  | _ + 1, [] => 0
  | n + 1, c :: cs =>
    match wfCitationRest (c :: cs) with
    | some rest => 1 + countWFGo n rest
    | none => countWFGo n cs

/-- The number of correctly formed sortname citations a text
contains. -/
def countWF (s : List Char) : Nat :=
  countWFGo s.length s

/-- The text of one citation: `{{sortname|` first `|` last
(`|` title)? `}}`. -/
def citationChars (f l : List Char) (a : Option (List Char)) : List Char :=
  sortnameLit ++ f ++ '|' :: l ++
    (match a with
     | none => []
     | some t => '|' :: t) ++ ['\x7d', '\x7d']

/-- A well-formed citation argument: every character is an argument
character. -/
def goodArg (l : List Char) : Bool := l.all isArgChar

/-- Text with no opening brace: such a segment can neither start a
match nor combine with its surroundings into one. -/
def noBrace (l : List Char) : Bool := l.all (fun c => !(c = '\x7b'))

/-- A section text assembled as gap, citation, gap, citation, …, final
gap. -/
def assembleText :
    List (List Char × List Char × List Char × Option (List Char)) → List Char → List Char
  | [], gN => gN
  | it :: rest, gN => it.1 ++ citationChars it.2.1 it.2.2.1 it.2.2.2 ++ assembleText rest gN

/-! ## URL construction (`wiki_query` caller side)

`urllib.parse.quote` percent-encodes the UTF-8 bytes of the title,
leaving ASCII letters, digits, `_ . - ~` and `/` unescaped. -/

/-- UTF-8 encoding of one character (as byte values). -/
def utf8Bytes (c : Char) : List Nat :=
  let n := c.toNat
  if n < 0x80 then [n]
  else if n < 0x800 then
    [0xC0 ||| (n >>> 6), 0x80 ||| (n &&& 0x3F)]
  else if n < 0x10000 then
    [0xE0 ||| (n >>> 12), 0x80 ||| ((n >>> 6) &&& 0x3F), 0x80 ||| (n &&& 0x3F)]
  else
    [0xF0 ||| (n >>> 18), 0x80 ||| ((n >>> 12) &&& 0x3F),
     0x80 ||| ((n >>> 6) &&& 0x3F), 0x80 ||| (n &&& 0x3F)]

def hexDigit (n : Nat) : Char :=
  if n < 10 then Char.ofNat ('0'.toNat + n) else Char.ofNat ('A'.toNat + n - 10)

def isSafeByte (b : Nat) : Bool :=
  (0x41 ≤ b && b ≤ 0x5A) || (0x61 ≤ b && b ≤ 0x7A) || (0x30 ≤ b && b ≤ 0x39) ||
  b = '_'.toNat || b = '.'.toNat || b = '-'.toNat || b = '~'.toNat || b = '/'.toNat

def quoteByte (b : Nat) : List Char :=
  if isSafeByte b then [Char.ofNat b]
  else ['%', hexDigit (b / 16), hexDigit (b % 16)]

/-- `urllib.parse.quote(title.encode('utf8'))`. -/
def pyQuote (s : String) : String :=
  String.mk ((s.data.flatMap utf8Bytes).flatMap quoteByte)

/-- `'http://en.wikipedia.org/w/api.php?' + '&'.join('%s=%s' % (k, v) ...)`
(the params dict iterates in insertion order). -/
def wikiApiUrl (params : List (String × String)) : String :=
  "http://en.wikipedia.org/w/api.php?" ++
    "&".intercalate (params.map (fun p => p.1 ++ "=" ++ p.2))

/-- The query parameters of `wiki_query_article`. -/
def articleParams (title : String) : List (String × String) :=
  [("format", "xml"), ("action", "query"), ("prop", "revisions"),
   ("rvprop", "timestamp|user|comment|content"),
   ("titles", "API|" ++ pyQuote title)]

/-- The query parameters of `wiki_query_image_url` (no percent-encoding
here: the source formats the raw title in). -/
def imageParams (file_name : String) : List (String × String) :=
  [("format", "xml"), ("action", "query"), ("prop", "imageinfo"),
   ("iiprop", "url"), ("titles", "API|File:" ++ file_name)]

/-! ## Portrait Downloader and Batch Orchestrator

Side effects are made explicit as an event trace: `net u` is an HTTP
GET of `u`, `writeB b` is a chunk of bytes written to the member's open
output file.  The remote world is an oracle fixing each response. -/

inductive Ev where
  | openW (name : String)
  | net (url : String)
  | writeB (bytes : String)
  deriving DecidableEq, Repr

/-- Everything the outside world answers during one member's download
pipeline. -/
structure MemberOracle where
  /-- Parsed XML response to the biography revisions query. -/
  articleDoc : XDoc
  /-- `mwparserfromhell.parse(page_text).filter_templates()` on the
  fetched article text. -/
  templatesOf : String → List WTemplate
  /-- Parsed XML response to the image-info query. -/
  imageDoc : XDoc
  /-- Whether `image_response.raise_for_status()` passes. -/
  statusOk : Bool
  /-- The chunks `shutil.copyfileobj` would copy from the raw stream. -/
  chunks : List String
  /-- `some n`: the raw stream errors after `n` chunks were copied. -/
  streamFailAfter : Option Nat

/-- `download_congress_portrait(page_title, img_file)`: the emitted
event trace (network requests and file writes, in order) together with
the outcome.  A `None` page text parses as empty markup and hence
yields no templates; a `None` image URL makes `requests.get` raise
before any request is sent. -/
def download_congress_portrait (page_title : String) (o : MemberOracle) :
    List Ev × Except PyError Unit :=
  let ev1 := Ev.net (wikiApiUrl (articleParams page_title))
  match wiki_query_article o.articleDoc with
  | .error e => ([ev1], .error e)
  | .ok page_text =>
    let templates :=
      match page_text with
      | none => []
      | some txt => o.templatesOf txt
    match wiki_read_officeholder_image_name templates with
    | .error e => ([ev1], .error e)
    | .ok image_name =>
      let ev2 := Ev.net (wikiApiUrl (imageParams image_name))
      match wiki_query_image_url image_name o.imageDoc with
      | .error e => ([ev1, ev2], .error e)
      | .ok none => ([ev1, ev2], .error .requestError)
      | .ok (some image_url) =>
        let ev3 := Ev.net image_url
        if o.statusOk then
          match o.streamFailAfter with
          | none => ([ev1, ev2, ev3] ++ o.chunks.map Ev.writeB, .ok ())
          | some n => ([ev1, ev2, ev3] ++ (o.chunks.take n).map Ev.writeB, .error .streamError)
        else ([ev1, ev2, ev3], .error .httpError)

/-- The biography article title the Orchestrator derives from a roster
triple: `article_name.lstrip('|') if article_name else fname + ' ' + lname`
(the empty string is falsy). -/
def deriveArticleTitle (fname lname article : String) : String :=
  if article ≠ "" then String.mk (article.data.dropWhile (fun c => c = '|'))
  else fname ++ " " ++ lname

/-- `'us_congress_portrait_{}_{}.jpg'.format(lname.lower(), fname.lower())`. -/
def imgFileName (fname lname : String) : String :=
  "us_congress_portrait_" ++ pyLower lname ++ "_" ++ pyLower fname ++ ".jpg"

/-- The `'{}, {}'.format(lname, fname)` entry of the Failure List. -/
def fmtFailure (m : String × String × String) : String :=
  m.2.1 ++ ", " ++ m.1

/-- The local filesystem: file name to contents. -/
def FS : Type := String → Option String

/-- Create-or-truncate, as `open(name, 'wb')` does. -/
def setFile (fs : FS) (name v : String) : FS :=
  fun n => if n = name then some v else fs n

/-- Append a chunk to an open file. -/
def appendFile (fs : FS) (name b : String) : FS :=
  setFile fs name (((fs name).getD "") ++ b)

/-- Replay one pipeline event against the filesystem; writes go to the
member's open output file. -/
def applyEv (name : String) (fs : FS) : Ev → FS
  | .writeB b => appendFile fs name b
  | _ => fs

/-- The bytes a trace wrote. -/
def writtenBytes : List Ev → String
  | [] => ""
  | .writeB b :: t => b ++ writtenBytes t
  | _ :: t => writtenBytes t

/-- One iteration of the Orchestrator's batch loop for the roster
triple `m = (fname, lname, articlename)`: derive the title and output
name, open (truncate) the output file, run the pipeline, and either
keep the failure list or append `"Lastname, Firstname"`.  Returns the
filesystem, the failure list and the full event trace of the
iteration. -/
def processMember (fs : FS) (failures : List String)
    (m : String × String × String) (o : MemberOracle) :
    FS × List String × List Ev :=
  let article_name := deriveArticleTitle m.1 m.2.1 m.2.2
  let img := imgFileName m.1 m.2.1
  let fs1 := setFile fs img ""
  let r := download_congress_portrait article_name o
  let fs2 := r.1.foldl (applyEv img) fs1
  match r.2 with
  | .ok _ => (fs2, failures, Ev.openW img :: r.1)
  | .error _ => (fs2, failures ++ [fmtFailure m], Ev.openW img :: r.1)

/-- The Orchestrator's loop over `senators + representatives`, starting
from an empty failure list. -/
def batchLoop (oracle : String × String × String → MemberOracle)
    (fs : FS) (members : List (String × String × String)) : FS × List String :=
  members.foldl
    (fun st m =>
      let r := processMember st.1 st.2 m (oracle m)
      (r.1, r.2.1))
    (fs, [])

/-- Stable insertion of a string into an ascending list (equal elements
keep their relative order). -/
def insortStr (x : String) : List String → List String
  | [] => [x]
  | h :: t => if pyStrLe h x then h :: insortStr x t else x :: h :: t

/-- Python's `sorted` on a list of strings: a stable ascending sort,
modelled by insertion sort. -/
def pySorted (l : List String) : List String :=
  l.foldl (fun acc x => insortStr x acc) []

/-- What the outside world answers during one `current_members` call. -/
structure RosterOracle where
  /-- Parsed XML response to the listing-page revisions query. -/
  pageDoc : XDoc
  /-- `str()` of each section returned by
  `parse(page_text).get_sections(matches=section_name)`. -/
  sectionsOf : String → List String

/-- `current_members(page_name, section_name)`: fetch the listing page,
isolate the unique matching section (an assertion), and run the
`RE_SORTNAME` findall over its text.  A `None` page text parses as
empty markup with no sections. -/
def current_members (o : RosterOracle) :
    Except PyError (List (String × String × String)) :=
  match wiki_query_article o.pageDoc with
  | .error e => .error e
  | .ok page_text =>
    let sections :=
      match page_text with
      | none => []
      | some txt => o.sectionsOf txt
    match sections with
    | [s] => .ok (findallSortname s)
    | _ => .error .assertionError

/-- `main()`: build the two rosters, run the batch loop, print the
sorted failure list, and return.  The returned value models normal
process completion (exit status 0); `.error` models an uncaught
exception. -/
def mainRun (senate house : RosterOracle)
    (oracle : String × String × String → MemberOracle) (fs : FS) :
    Except PyError (FS × List String) :=
  match current_members senate with
  | .error e => .error e
  | .ok senators =>
    match current_members house with
    | .error e => .error e
    | .ok representatives =>
      let r := batchLoop oracle fs (senators ++ representatives)
      .ok (r.1, pySorted r.2)

/-! ## Concrete response documents and oracles used as test inputs -/

instance {ε α : Type} [DecidableEq ε] [DecidableEq α] : DecidableEq (Except ε α) :=
  fun a b =>
    match a, b with
    | .ok x, .ok y => if h : x = y then .isTrue (by rw [h]) else .isFalse (by simp [h])
    | .error x, .error y => if h : x = y then .isTrue (by rw [h]) else .isFalse (by simp [h])
    | .ok _, .error _ => .isFalse (by simp)
    | .error _, .ok _ => .isFalse (by simp)

/-- An image-metadata response whose sought page node carries no
image-info node, while a different page node does. -/
def dC2 : XDoc :=
  [⟨[], "api", [], none⟩,
   ⟨[0], "query", [], none⟩,
   ⟨[0, 0], "pages", [], none⟩,
   ⟨[0, 0, 0], "page", [("title", "API")], none⟩,
   ⟨[0, 0, 0, 0], "ii", [("url", "http://example.com/elsewhere.jpg")], none⟩,
   ⟨[0, 0, 1], "page", [("title", "File:Jane_Doe.jpg")], none⟩]

/-- The page node of `dC2` carrying the query title. -/
def pageC2 : XElem := ⟨[0, 0, 1], "page", [("title", "File:Jane_Doe.jpg")], none⟩

/-- A revisions response in which only the sentinel `API` title
resolved: the requested article has no revision node. -/
def dC3 : XDoc :=
  [⟨[], "api", [], none⟩,
   ⟨[0], "query", [], none⟩,
   ⟨[0, 0], "pages", [], none⟩,
   ⟨[0, 0, 0], "page", [("title", "API")], none⟩,
   ⟨[0, 0, 0, 0], "revisions", [], none⟩,
   ⟨[0, 0, 0, 0, 0], "rev", [], some "API sentinel article text"⟩,
   ⟨[0, 0, 1], "page", [("title", "Jane Doe"), ("missing", "")], none⟩]

/-- An image-metadata response with a `normalized` mapping: the query
title differs from the normalized title, a page node exists under each,
and only the normalized one carries the image info. -/
def dC8 : XDoc :=
  [⟨[], "api", [], none⟩,
   ⟨[0], "query", [], none⟩,
   ⟨[0, 0], "normalized", [], none⟩,
   ⟨[0, 0, 0], "n", [("from", "File:jane doe.jpg"), ("to", "File:Jane doe.jpg")], none⟩,
   ⟨[0, 1], "pages", [], none⟩,
   ⟨[0, 1, 0], "page", [("title", "File:jane doe.jpg")], none⟩,
   ⟨[0, 1, 1], "page", [("title", "File:Jane doe.jpg")], none⟩,
   ⟨[0, 1, 1, 0], "imageinfo", [], none⟩,
   ⟨[0, 1, 1, 0, 0], "ii", [("url", "http://upload.example/Jane_doe.jpg")], none⟩]

/-- The normalization node of `dC8`. -/
def nC8 : XElem :=
  ⟨[0, 0, 0], "n", [("from", "File:jane doe.jpg"), ("to", "File:Jane doe.jpg")], none⟩

/-- The page node of `dC8` carrying the normalized title. -/
def pgC8 : XElem := ⟨[0, 1, 1], "page", [("title", "File:Jane doe.jpg")], none⟩

/-- The image-info node of `dC8`. -/
def iiC8 : XElem :=
  ⟨[0, 1, 1, 0, 0], "ii", [("url", "http://upload.example/Jane_doe.jpg")], none⟩

/-- A member oracle whose very first step (the biography query) fails:
the response holds no revision node at all. -/
def failO : MemberOracle :=
  ⟨[], fun _ => [], [], false, [], none⟩

/-- A roster oracle yielding one senator citation. -/
def senateO : RosterOracle :=
  ⟨[⟨[], "rev", [], some "senate roster page"⟩],
   fun _ => ["\x7b\x7bsortname|Jane|Doe\x7d\x7d"]⟩

/-- A roster oracle yielding one representative citation. -/
def houseO : RosterOracle :=
  ⟨[⟨[], "rev", [], some "house roster page"⟩],
   fun _ => ["\x7b\x7bsortname|John|Roe\x7d\x7d"]⟩

/-- An empty filesystem. -/
def fs0 : FS := fun _ => none

/-- A filesystem already holding bytes under Jane Doe's output name. -/
def fsOld : FS :=
  fun n => if n = imgFileName "Jane" "Doe" then some "OLD BYTES" else none

/-! # Theorems -/

/-! ## Shared list lemmas -/

theorem list_find?_eq_head?_filter {α : Type} (p : α → Bool) (l : List α) :
    l.find? p = (l.filter p).head? := by
  induction l with
  | nil => rfl
  | cons a t ih =>
    by_cases h : p a
    · simp [List.find?, List.filter, h]
    · simp only [List.find?, List.filter, h]
      exact ih

theorem filter_singleton_find?_reverse {α : Type} (p : α → Bool) (l : List α) (q : α)
    (h : l.filter p = [q]) : l.reverse.find? p = some q := by
  rw [list_find?_eq_head?_filter, List.filter_reverse, h]
  rfl

/-! ## C5: the Infobox Resolver -/

theorem templateGet_image_of_unique (t : WTemplate) (q : String × String)
    (h : t.params.filter (fun p => pyStrip p.1 = "image") = [q]) :
    templateGet t "image" = some q :=
  filter_singleton_find?_reverse _ _ _ h

/-- C5: when the number of templates whose trimmed, lower-cased name is
one of the five recognised office-holder infobox variants differs from
one, `wiki_read_officeholder_image_name` raises; when exactly one such
template exists and it carries a unique `image` parameter, the function
returns that parameter's value with surrounding whitespace stripped. -/
theorem c5_infobox_unique_required (ts : List WTemplate) :
    ((ts.filter isInfobox).length ≠ 1 →
      isErr (wiki_read_officeholder_image_name ts) = true) ∧
    (∀ t q, ts.filter isInfobox = [t] →
      t.params.filter (fun p => pyStrip p.1 = "image") = [q] →
      wiki_read_officeholder_image_name ts = .ok (pyStrip q.2)) := by
  constructor
  · intro h
    unfold wiki_read_officeholder_image_name
    match hf : ts.filter isInfobox with
    | [] => rfl
    | [t] => exact absurd (by rw [hf]; rfl) h
    | t₁ :: t₂ :: r => rfl
  · intro t q ht hq
    unfold wiki_read_officeholder_image_name
    rw [ht]
    simp [templateGet_image_of_unique t q hq]

/-- The Infobox Resolver at concrete inputs: an empty template list is
a fatal failure, and the specification's example article (exactly one
`Infobox officeholder` template whose `image` field is
`" Jane_Doe.jpg "`) yields `"Jane_Doe.jpg"`. -/
theorem c5_witness :
    isErr (wiki_read_officeholder_image_name []) = true ∧
    wiki_read_officeholder_image_name
      [⟨"Infobox officeholder ", [("image", " Jane_Doe.jpg ")]⟩] = .ok "Jane_Doe.jpg" := by
  constructor
  · exact (c5_infobox_unique_required []).1 (by decide)
  · exact (c5_infobox_unique_required _).2
      ⟨"Infobox officeholder ", [("image", " Jane_Doe.jpg ")]⟩
      ("image", " Jane_Doe.jpg ") (by decide) (by decide)

/-! ## C2: the Image URL Resolver's uniqueness invariant -/

/-- C2 (amended): the resolver raises whenever the number of page nodes
carrying the (possibly normalized) title, or the number of image-info
nodes in the whole response document, differs from one.  (The source's
`page.xpath('//ii')` is an absolute path: it counts the document's
image-info nodes, not the located page's.) -/
theorem c2_amended_unique_in_document (file_name : String) (d : XDoc)
    (h : (pagesTitled d (responseTitleOf d ("File:" ++ file_name))).length ≠ 1 ∨
         (xpathAll d "ii").length ≠ 1) :
    isErr (wiki_query_image_url file_name d) = true := by
  unfold wiki_query_image_url
  rcases h with h | h
  · match hp : pagesTitled d (responseTitleOf d ("File:" ++ file_name)) with
    | [] => rfl
    | [p] => exact absurd (by rw [hp]; rfl) h
    | p₁ :: p₂ :: r => rfl
  · match hp : pagesTitled d (responseTitleOf d ("File:" ++ file_name)) with
    | [] => rfl
    | [p] =>
      match hi : xpathAll d "ii" with
      | [] => rfl
      | [i] => exact absurd (by rw [hi]; rfl) h
      | i₁ :: i₂ :: r => rfl
    | p₁ :: p₂ :: r => rfl

/-- A response with two page nodes of the sought title makes the
resolver raise. -/
theorem c2_amended_witness :
    isErr (wiki_query_image_url "Jane_Doe.jpg"
      [⟨[0], "page", [("title", "File:Jane_Doe.jpg")], none⟩,
       ⟨[1], "page", [("title", "File:Jane_Doe.jpg")], none⟩]) = true :=
  c2_amended_unique_in_document "Jane_Doe.jpg" _ (.inl (by decide))

/-- C2 counterexample: in `dC2`, exactly one page node carries the
(un-normalized) title, that page has no image-info node under it —
so the claim as stated demands a failure — and yet the resolver
returns the URL of the image-info node found under a different page. -/
theorem c2_counterexample :
    pagesTitled dC2 "File:Jane_Doe.jpg" = [pageC2] ∧
    responseTitleOf dC2 "File:Jane_Doe.jpg" = "File:Jane_Doe.jpg" ∧
    iiUnder dC2 pageC2 = [] ∧
    wiki_query_image_url "Jane_Doe.jpg" dC2 = .ok (some "http://example.com/elsewhere.jpg") :=
  ⟨by decide, by decide, by decide, by decide⟩

/-! ## C3: the Markup Reader -/

/-- C3 (amended): the Markup Reader raises only when the response holds
no revision node at all; otherwise it returns the text of the last
revision node of the document — which, because the query always
prefixes the sentinel title `API`, need not belong to the requested
article. -/
theorem c3_amended_last_rev (d : XDoc) :
    (xpathAll d "rev" = [] → isErr (wiki_query_article d) = true) ∧
    (∀ r, (xpathAll d "rev").getLast? = some r → wiki_query_article d = .ok r.text) := by
  constructor
  · intro h
    unfold wiki_query_article
    rw [h]
    rfl
  · intro r h
    unfold wiki_query_article
    rw [h]

/-- The Markup Reader at concrete inputs: an empty response raises, and
`dC3` returns the sentinel article's text. -/
theorem c3_amended_witness :
    isErr (wiki_query_article []) = true ∧
    wiki_query_article dC3 = .ok (some "API sentinel article text") :=
  ⟨(c3_amended_last_rev []).1 rfl,
   (c3_amended_last_rev dC3).2 ⟨[0, 0, 0, 0, 0], "rev", [], some "API sentinel article text"⟩ rfl⟩

/-! ## C8: title normalization in the Image URL Resolver -/

theorem foldl_normStep_of_no_match (qt : String) (L : List XElem) (rt : String)
    (h : ∀ n ∈ L, getAttr n "from" ≠ some qt) :
    L.foldl (normStep qt) rt = rt := by
  induction L generalizing rt with
  | nil => rfl
  | cons a t ih =>
    rw [List.foldl_cons, normStep, if_neg (h a (by simp))]
    exact ih rt (fun n hn => h n (by simp [hn]))

theorem foldl_normStep_of_unique (qt T' : String) (L : List XElem) (n₀ : XElem) (rt : String)
    (h : L.filter (fun n => getAttr n "from" = some qt) = [n₀])
    (h2 : getAttr n₀ "to" = some T') :
    L.foldl (normStep qt) rt = T' := by
  induction L generalizing rt with
  | nil => simp at h
  | cons a t ih =>
    rw [List.filter_cons] at h
    by_cases ha : getAttr a "from" = some qt
    · simp only [ha, decide_true_eq_true, if_pos, List.cons.injEq] at h
      rw [List.foldl_cons, normStep, if_pos ha, h.1, h2]
      exact foldl_normStep_of_no_match qt t _
        (fun n hn hq => List.filter_eq_nil_iff.mp h.2 n hn (by simp [hq]))
    · simp [ha] at h
      rw [List.foldl_cons, normStep, if_neg ha]
      exact ih rt h

/-- C8: when the response carries exactly one `normalized` mapping node
whose `from` equals the query title `File:<name>`, mapping it `to` a
normalized title, and exactly one page node carries that normalized
title, under which lies the document's single image-info node, the
resolver locates the page under the normalized title and returns that
page's image URL. -/
theorem c8_normalized_title_used (file_name T' : String) (d : XDoc) (nrm pg ii : XElem)
    (h1 : (xpathChildOf d "normalized" "n").filter
            (fun n => getAttr n "from" = some ("File:" ++ file_name)) = [nrm])
    (h2 : getAttr nrm "to" = some T')
    (h3 : pagesTitled d T' = [pg])
    (h4 : xpathAll d "ii" = [ii])
    (h5 : pg.path.isPrefixOf ii.path = true)
    (h6 : ii.path ≠ pg.path) :
    responseTitleOf d ("File:" ++ file_name) = T' ∧
    iiUnder d pg = [ii] ∧
    wiki_query_image_url file_name d = .ok (getAttr ii "url") := by
  have hrt : responseTitleOf d ("File:" ++ file_name) = T' :=
    foldl_normStep_of_unique _ T' _ nrm _ h1 h2
  refine ⟨hrt, ?_, ?_⟩
  · rw [iiUnder, h4]
    simp [h5, h6]
  · unfold wiki_query_image_url
    rw [hrt, h3, h4]

/-- The resolver on the concrete response `dC8`: the query title and
the normalized title differ, page nodes exist under both, and the
returned URL is the one under the normalized title's page. -/
theorem c8_witness :
    wiki_query_image_url "jane doe.jpg" dC8 = .ok (some "http://upload.example/Jane_doe.jpg") ∧
    pagesTitled dC8 "File:jane doe.jpg" ≠ [] := by
  refine ⟨?_, by decide⟩
  exact (c8_normalized_title_used "jane doe.jpg" "File:Jane doe.jpg" dC8 nC8 pgC8 iiC8
    (by decide) (by decide) (by decide) (by decide) (by decide) (by decide)).2.2

/-! ## C1, C4, C9: the Batch Orchestrator -/

theorem processMember_failures (fs : FS) (acc : List String)
    (m : String × String × String) (o : MemberOracle) :
    (processMember fs acc m o).2.1 =
      if isErr (download_congress_portrait (deriveArticleTitle m.1 m.2.1 m.2.2) o).2 = true
      then acc ++ [fmtFailure m] else acc := by
  simp only [processMember]
  cases hres : (download_congress_portrait (deriveArticleTitle m.1 m.2.1 m.2.2) o).2 <;>
    simp [isErr]

/-- C1: over any member list and any outside-world behaviour, the batch
loop records in the Failure List exactly the members whose download
pipeline raised, each as `"Lastname, Firstname"`, in roster order — so
every member is processed and no member's failure escapes the loop. -/
theorem c1_batch_failure_isolation (oracle : String × String × String → MemberOracle)
    (fs : FS) (members : List (String × String × String)) :
    (batchLoop oracle fs members).2 =
      (members.filter (fun m =>
        isErr (download_congress_portrait (deriveArticleTitle m.1 m.2.1 m.2.2) (oracle m)).2)).map
        fmtFailure := by
  have aux : ∀ (ms : List (String × String × String)) (f : FS) (acc : List String),
      (ms.foldl
        (fun st m =>
          let r := processMember st.1 st.2 m (oracle m)
          (r.1, r.2.1))
        (f, acc)).2 =
      acc ++ (ms.filter (fun m =>
        isErr (download_congress_portrait (deriveArticleTitle m.1 m.2.1 m.2.2) (oracle m)).2)).map
        fmtFailure := by
    intro ms
    induction ms with
    | nil => intro f acc; simp
    | cons m t ih =>
      intro f acc
      rw [List.foldl_cons]
      show (t.foldl _
        ((processMember f acc m (oracle m)).1, (processMember f acc m (oracle m)).2.1)).2 = _
      rw [ih, processMember_failures, List.filter_cons]
      by_cases herr :
          isErr (download_congress_portrait (deriveArticleTitle m.1 m.2.1 m.2.2) (oracle m)).2 = true
      · simp [herr]
      · simp [herr]
  exact aux members fs []

/-- C4: whenever both roster extractions succeed, `main` returns
normally (models exit status 0) for every filesystem and every
behaviour of the member pipelines — including all of them failing. -/
theorem c4_run_completes (senate house : RosterOracle)
    (oracle : String × String × String → MemberOracle) (fs : FS)
    (senators representatives : List (String × String × String))
    (hs : current_members senate = .ok senators)
    (hh : current_members house = .ok representatives) :
    ∃ out, mainRun senate house oracle fs = Except.ok out := by
  unfold mainRun
  rw [hs, hh]
  exact ⟨_, rfl⟩

/-- A full run in which every member's pipeline raises: the run still
returns normally, reporting both members in the sorted Failure List. -/
theorem c4_witness :
    (∃ out, mainRun senateO houseO (fun _ => failO) fs0 = Except.ok out) ∧
    (mainRun senateO houseO (fun _ => failO) fs0).map (fun p => p.2) =
      Except.ok ["Doe, Jane", "Roe, John"] := by
  constructor
  · exact c4_run_completes senateO houseO (fun _ => failO) fs0 _ _ rfl rfl
  · rfl

theorem foldl_applyEv (img : String) (evs : List Ev) (fs : FS) (v : String)
    (h : fs img = some v) :
    (evs.foldl (applyEv img) fs) img = some (v ++ writtenBytes evs) := by
  induction evs generalizing fs v with
  | nil => simpa [writtenBytes] using h
  | cons e t ih =>
    cases e with
    | openW n => simpa [writtenBytes, applyEv] using ih fs v h
    | net u => simpa [writtenBytes, applyEv] using ih fs v h
    | writeB b =>
      rw [List.foldl_cons]
      have hset : (applyEv img fs (Ev.writeB b)) img = some (v ++ b) := by
        simp [applyEv, appendFile, setFile, h]
      simpa [writtenBytes, String.append_assoc] using ih _ _ hset

/-- C9: each batch iteration opens (creating or truncating) the
member's output file as its first effect, before any network request of
that member's pipeline; consequently, when the pipeline raises at any
stage, the file remains on disk holding exactly the bytes the pipeline
streamed before failing (none, if it failed before the copy), the
previous contents being gone. -/
theorem c9_truncate_before_network (fs : FS) (fails : List String)
    (fname lname article : String) (o : MemberOracle) :
    (processMember fs fails (fname, lname, article) o).2.2.head? =
      some (Ev.openW (imgFileName fname lname)) ∧
    (∀ u, Ev.net u ∈ (processMember fs fails (fname, lname, article) o).2.2 →
      Ev.net u ∈ (processMember fs fails (fname, lname, article) o).2.2.drop 1) ∧
    (∀ e, (download_congress_portrait (deriveArticleTitle fname lname article) o).2 =
        .error e →
      (processMember fs fails (fname, lname, article) o).1 (imgFileName fname lname) =
        some (writtenBytes (download_congress_portrait (deriveArticleTitle fname lname article) o).1)) := by
  have htrace : (processMember fs fails (fname, lname, article) o).2.2 =
      Ev.openW (imgFileName fname lname) ::
        (download_congress_portrait (deriveArticleTitle fname lname article) o).1 := by
    simp only [processMember]
    cases hres : (download_congress_portrait (deriveArticleTitle fname lname article) o).2 <;> rfl
  have hfs : (processMember fs fails (fname, lname, article) o).1 =
      (download_congress_portrait (deriveArticleTitle fname lname article) o).1.foldl
        (applyEv (imgFileName fname lname))
        (setFile fs (imgFileName fname lname) "") := by
    simp only [processMember]
    cases hres : (download_congress_portrait (deriveArticleTitle fname lname article) o).2 <;> rfl
  refine ⟨by rw [htrace]; rfl, ?_, ?_⟩
  · intro u hu
    rw [htrace] at hu ⊢
    rcases List.mem_cons.mp hu with h | h
    · exact absurd h (by simp)
    · simpa using h
  · intro e _
    rw [hfs]
    have h0 : (setFile fs (imgFileName fname lname) "") (imgFileName fname lname) = some "" := by
      simp [setFile]
    simpa using foldl_applyEv (imgFileName fname lname) _ _ "" h0

/-- A failing pipeline (its first network step raises) leaves Jane
Doe's output file present but empty, although it held bytes before the
run. -/
theorem c9_witness :
    fsOld (imgFileName "Jane" "Doe") = some "OLD BYTES" ∧
    (processMember fsOld [] ("Jane", "Doe", "") failO).1 (imgFileName "Jane" "Doe") =
      some "" := by
  refine ⟨rfl, ?_⟩
  exact (c9_truncate_before_network fsOld [] "Jane" "Doe" "" failO).2.2 .indexError rfl

/-- C3 counterexample: in `dC3` the requested title `"Jane Doe"` does
not resolve — no revision node lies under a page node of that title —
yet the Markup Reader returns a text value (the sentinel `API`
article's revision) instead of failing. -/
theorem c3_counterexample :
    revsOfTitle dC3 "Jane Doe" = [] ∧
    pagesTitled dC3 "Jane Doe" ≠ [] ∧
    wiki_query_article dC3 = .ok (some "API sentinel article text") :=
  ⟨by decide, by decide, by decide⟩

/-! ## The sortname matcher on well-formed citations -/

theorem isArgChar_spec (c : Char) (h : isArgChar c = true) :
    c ≠ '|' ∧ c ≠ '\x7b' ∧ c ≠ '\x7d' ∧ c ≠ '\n' := by
  have h' := h
  simp only [isArgChar, Bool.not_eq_true', decide_eq_false_iff_not, not_or,
    Bool.or_eq_false_iff, decide_eq_false_iff_not] at h'
  tauto

theorem goodArg_cons (c : Char) (t : List Char) :
    goodArg (c :: t) = true ↔ isArgChar c = true ∧ goodArg t = true := by
  simp [goodArg]

theorem stripLit_append (L s : List Char) : stripLit L (L ++ s) = some s := by
  induction L with
  | nil => rfl
  | cons c cs ih => simp [stripLit, ih]

theorem stripLit_sortname_none (c : Char) (cs : List Char) (h : c ≠ '\x7b') :
    stripLit sortnameLit (c :: cs) = none := by
  simp [sortnameLit, stripLit, h]

theorem takeUntilPipe_append (f r : List Char) (hf : goodArg f = true) :
    takeUntilPipe (f ++ '|' :: r) = some (f, r) := by
  induction f with
  | nil => simp [takeUntilPipe]
  | cons c t ih =>
    obtain ⟨hc, ht⟩ := (goodArg_cons c t).mp hf
    obtain ⟨h1, _, _, h4⟩ := isArgChar_spec c hc
    simp [takeUntilPipe, h1, h4, ih ht]

theorem findCloseBraces_append (t r : List Char) (ht : goodArg t = true) :
    findCloseBraces (t ++ '\x7d' :: '\x7d' :: r) = some (t, r) := by
  induction t with
  | nil => simp [findCloseBraces]
  | cons c t' ih =>
    obtain ⟨hc, ht'⟩ := (goodArg_cons c t').mp ht
    obtain ⟨_, _, h3, h4⟩ := isArgChar_spec c hc
    simp [findCloseBraces, h3, h4, ih ht']

theorem matchAfterSecondPipe_close (l r : List Char) (hl : goodArg l = true) :
    matchAfterSecondPipe (l ++ '\x7d' :: '\x7d' :: r) = some (l, none, r) := by
  induction l with
  | nil => simp [matchAfterSecondPipe]
  | cons c t ih =>
    obtain ⟨hc, ht⟩ := (goodArg_cons c t).mp hl
    obtain ⟨h1, _, h3, h4⟩ := isArgChar_spec c hc
    simp [matchAfterSecondPipe, h1, h3, h4, ih ht]

theorem matchAfterSecondPipe_pipe (l t r : List Char)
    (hl : goodArg l = true) (ht : goodArg t = true) :
    matchAfterSecondPipe (l ++ '|' :: (t ++ '\x7d' :: '\x7d' :: r)) =
      some (l, some ('|' :: t), r) := by
  induction l with
  | nil => simp [matchAfterSecondPipe, findCloseBraces_append t r ht]
  | cons c t' ih =>
    obtain ⟨hc, ht'⟩ := (goodArg_cons c t').mp hl
    obtain ⟨h1, _, h3, h4⟩ := isArgChar_spec c hc
    simp [matchAfterSecondPipe, h1, h3, h4, ih ht']

theorem tryMatchAt_citation (f l : List Char) (a : Option (List Char)) (rest : List Char)
    (hf : goodArg f = true) (hl : goodArg l = true)
    (ha : ∀ u, a = some u → goodArg u = true) :
    tryMatchAt (citationChars f l a ++ rest) =
      some (f, l, a.map (fun u => '|' :: u), rest) := by
  cases a with
  | none =>
    have hs : citationChars f l none ++ rest =
        sortnameLit ++ (f ++ '|' :: (l ++ '\x7d' :: '\x7d' :: rest)) := by
      simp [citationChars, List.append_assoc]
    rw [hs]
    simp [tryMatchAt, stripLit_append, takeUntilPipe_append f _ hf,
      matchAfterSecondPipe_close l rest hl]
  | some t =>
    have hs : citationChars f l (some t) ++ rest =
        sortnameLit ++ (f ++ '|' :: (l ++ '|' :: (t ++ '\x7d' :: '\x7d' :: rest))) := by
      simp [citationChars, List.append_assoc]
    rw [hs]
    simp [tryMatchAt, stripLit_append, takeUntilPipe_append f _ hf,
      matchAfterSecondPipe_pipe l t rest hl (ha t rfl)]

/-! ### Consumption bounds: every successful match eats at least one
character, so the length-fuelled scans never starve. -/

theorem stripLit_length (L : List Char) :
    ∀ s r, stripLit L s = some r → r.length ≤ s.length := by
  induction L with
  | nil =>
    intro s r h
    simp only [stripLit, Option.some.injEq] at h
    rw [h]
  | cons c cs ih =>
    intro s r h
    cases s with
    | nil => simp [stripLit] at h
    | cons x xs =>
      simp only [stripLit] at h
      by_cases hx : x = c
      · rw [if_pos hx] at h
        exact Nat.le_trans (ih xs r h) (by simp)
      · rw [if_neg hx] at h
        exact absurd h (by simp)

theorem takeUntilPipe_length :
    ∀ (s : List Char) p, takeUntilPipe s = some p → p.2.length < s.length := by
  intro s
  induction s with
  | nil => intro p h; simp [takeUntilPipe] at h
  | cons c cs ih =>
    intro p h
    simp only [takeUntilPipe] at h
    by_cases h1 : c = '|'
    · rw [if_pos h1] at h
      cases h
      simp
    · rw [if_neg h1] at h
      by_cases h2 : c = '\n'
      · rw [if_pos h2] at h; exact absurd h (by simp)
      · rw [if_neg h2] at h
        cases hq : takeUntilPipe cs with
        | none => rw [hq] at h; exact absurd h (by simp)
        | some q =>
          rw [hq] at h
          cases h
          exact Nat.lt_trans (ih q hq) (by simp)

theorem findCloseBraces_length :
    ∀ (s : List Char) p, findCloseBraces s = some p → p.2.length < s.length := by
  intro s
  induction s with
  | nil => intro p h; simp [findCloseBraces] at h
  | cons c cs ih =>
    intro p h
    simp only [findCloseBraces] at h
    by_cases h1 : c = '\x7d'
    · rw [if_pos h1] at h
      cases cs with
      | nil => exact absurd h (by simp)
      | cons c2 rest =>
        dsimp only at h
        by_cases h2 : c2 = '\x7d'
        · rw [if_pos h2] at h
          cases h
          simp [Nat.lt_succ_iff]
        · rw [if_neg h2] at h
          cases hq : findCloseBraces (c2 :: rest) with
          | none => rw [hq] at h; exact absurd h (by simp)
          | some q =>
            rw [hq] at h
            cases h
            exact Nat.lt_trans (ih q hq) (by simp)
    · rw [if_neg h1] at h
      by_cases h2 : c = '\n'
      · rw [if_pos h2] at h; exact absurd h (by simp)
      · rw [if_neg h2] at h
        cases hq : findCloseBraces cs with
        | none => rw [hq] at h; exact absurd h (by simp)
        | some q =>
          rw [hq] at h
          cases h
          exact Nat.lt_trans (ih q hq) (by simp)

theorem matchAfterSecondPipe_length :
    ∀ (s : List Char) q, matchAfterSecondPipe s = some q → q.2.2.length < s.length := by
  intro s
  induction s with
  | nil => intro q h; simp [matchAfterSecondPipe] at h
  | cons c cs ih =>
    intro q h
    simp only [matchAfterSecondPipe] at h
    by_cases h1 : c = '|'
    · rw [if_pos h1] at h
      cases hq : findCloseBraces cs with
      | none =>
        rw [hq] at h
        cases hm : matchAfterSecondPipe cs with
        | none => rw [hm] at h; exact absurd h (by simp)
        | some m =>
          rw [hm] at h
          cases h
          exact Nat.lt_trans (ih m hm) (by simp)
      | some p =>
        rw [hq] at h
        cases h
        exact Nat.lt_trans (findCloseBraces_length cs p hq) (by simp)
    · rw [if_neg h1] at h
      by_cases h2 : c = '\x7d'
      · rw [if_pos h2] at h
        cases cs with
        | nil => exact absurd h (by simp)
        | cons c2 rest =>
          dsimp only at h
          by_cases h3 : c2 = '\x7d'
          · rw [if_pos h3] at h
            cases h
            simp [Nat.lt_succ_iff]
          · rw [if_neg h3] at h
            cases hm : matchAfterSecondPipe (c2 :: rest) with
            | none => rw [hm] at h; exact absurd h (by simp)
            | some m =>
              rw [hm] at h
              cases h
              exact Nat.lt_trans (ih m hm) (by simp)
      · rw [if_neg h2] at h
        by_cases h4 : c = '\n'
        · rw [if_pos h4] at h; exact absurd h (by simp)
        · rw [if_neg h4] at h
          cases hm : matchAfterSecondPipe cs with
          | none => rw [hm] at h; exact absurd h (by simp)
          | some m =>
            rw [hm] at h
            cases h
            exact Nat.lt_trans (ih m hm) (by simp)

theorem tryMatchAt_length (s : List Char) (q : List Char × List Char × Option (List Char) × List Char)
    (h : tryMatchAt s = some q) : q.2.2.2.length < s.length := by
  simp only [tryMatchAt] at h
  cases h0 : stripLit sortnameLit s with
  | none => rw [h0] at h; exact absurd h (by simp)
  | some r0 =>
    rw [h0] at h
    dsimp only at h
    cases h1 : takeUntilPipe r0 with
    | none => rw [h1] at h; exact absurd h (by simp)
    | some fp =>
      rw [h1] at h
      dsimp only at h
      cases h2 : matchAfterSecondPipe fp.2 with
      | none => rw [h2] at h; exact absurd h (by simp)
      | some lar =>
        rw [h2] at h
        cases h
        exact Nat.lt_of_lt_of_le
          (Nat.lt_trans (matchAfterSecondPipe_length fp.2 lar h2) (takeUntilPipe_length r0 fp h1))
          (stripLit_length sortnameLit s r0 h0)

theorem wfClose_length (s r : List Char) (h : wfClose s = some r) :
    r.length + 2 = s.length := by
  match s with
  | [] => simp [wfClose] at h
  | [c] => simp [wfClose] at h
  | c2 :: c3 :: t =>
    simp only [wfClose] at h
    split_ifs at h
    cases h
    simp

theorem splitArg_snd (s : List Char) : (splitArg s).2 = s.dropWhile isArgChar := rfl

theorem wfCitationRest_length (s rest : List Char) (h : wfCitationRest s = some rest) :
    rest.length < s.length := by
  simp only [wfCitationRest] at h
  cases h0 : stripLit sortnameLit s with
  | none => rw [h0] at h; exact absurd h (by simp)
  | some s1 =>
    rw [h0] at h
    dsimp only at h
    have hs1 : s1.length ≤ s.length := stripLit_length sortnameLit s s1 h0
    cases hm : (splitArg s1).2 with
    | nil => rw [hm] at h; exact absurd h (by simp)
    | cons c1 r2 =>
      rw [hm] at h
      dsimp only at h
      have hr2 : r2.length + 1 ≤ s1.length := by
        have h' : (s1.dropWhile isArgChar).length ≤ s1.length :=
          (List.dropWhile_sublist isArgChar).length_le
        rw [splitArg_snd] at hm
        rw [hm] at h'
        simpa using h'
      by_cases hc1 : c1 = '|'
      · rw [if_pos hc1] at h
        cases hm2 : (splitArg r2).2 with
        | nil => rw [hm2] at h; exact absurd h (by simp)
        | cons c2 r3 =>
          rw [hm2] at h
          dsimp only at h
          have hr3 : r3.length + 1 ≤ r2.length := by
            have h' : (r2.dropWhile isArgChar).length ≤ r2.length :=
              (List.dropWhile_sublist isArgChar).length_le
            rw [splitArg_snd] at hm2
            rw [hm2] at h'
            simpa using h'
          by_cases hc2 : c2 = '\x7d'
          · rw [if_pos hc2] at h
            have hcl := wfClose_length _ _ h
            simp only [List.length_cons] at hcl
            omega
          · rw [if_neg hc2] at h
            by_cases hc2' : c2 = '|'
            · rw [if_pos hc2'] at h
              have hd3 : (splitArg r3).2.length ≤ r3.length := by
                rw [splitArg_snd]
                exact (List.dropWhile_sublist isArgChar).length_le
              have hcl := wfClose_length _ _ h
              omega
            · rw [if_neg hc2'] at h
              exact absurd h (by simp)
      · rw [if_neg hc1] at h
        exact absurd h (by simp)

/-! ### Fuel adequacy and the structure of scans over gap/citation
decompositions -/

theorem scanGo_congr :
    ∀ (n m : Nat) (s : List Char), s.length ≤ n → s.length ≤ m → scanGo n s = scanGo m s := by
  intro n
  induction n with
  | zero =>
    intro m s h1 _
    have hs : s = [] := List.length_eq_zero.mp (Nat.le_zero.mp h1)
    subst hs
    cases m <;> rfl
  | succ k ih =>
    intro m s h1 h2
    cases s with
    | nil => cases m <;> rfl
    | cons c cs =>
      cases m with
      | zero => simp at h2
      | succ m' =>
        simp only [scanGo]
        cases ht : tryMatchAt (c :: cs) with
        | none =>
          exact ih m' cs (by simpa using Nat.le_of_succ_le_succ h1)
            (by simpa using Nat.le_of_succ_le_succ h2)
        | some r =>
          have hlen := tryMatchAt_length (c :: cs) r ht
          have hk : r.2.2.2.length ≤ k := by
            simp only [List.length_cons] at hlen h1
            omega
          have hm' : r.2.2.2.length ≤ m' := by
            simp only [List.length_cons] at hlen h2
            omega
          exact congrArg (fun x => (r.1, r.2.1, r.2.2.1) :: x) (ih m' r.2.2.2 hk hm')

theorem tryMatchAt_not_brace (c : Char) (cs : List Char) (h : c ≠ '\x7b') :
    tryMatchAt (c :: cs) = none := by
  simp [tryMatchAt, stripLit_sortname_none c cs h]

theorem noBrace_cons (c : Char) (t : List Char) :
    noBrace (c :: t) = true ↔ c ≠ '\x7b' ∧ noBrace t = true := by
  simp [noBrace]

theorem scanGo_gap :
    ∀ (g : List Char) (n : Nat) (rest : List Char), noBrace g = true →
      scanGo (g.length + n) (g ++ rest) = scanGo n rest := by
  intro g
  induction g with
  | nil => intro n rest _; simp
  | cons c g' ih =>
    intro n rest hg
    obtain ⟨hc, hg'⟩ := (noBrace_cons c g').mp hg
    have hlen : (c :: g').length + n = (g'.length + n) + 1 := by
      simp [Nat.add_right_comm]
    rw [hlen]
    show scanGo ((g'.length + n) + 1) (c :: (g' ++ rest)) = scanGo n rest
    simp only [scanGo, tryMatchAt_not_brace c (g' ++ rest) hc]
    exact ih n rest hg'

theorem scanSortname_gap (g rest : List Char) (hg : noBrace g = true) :
    scanSortname (g ++ rest) = scanSortname rest := by
  rw [scanSortname, List.length_append, scanGo_gap g rest.length rest hg]
  rfl

theorem scanSortname_citation (f l : List Char) (a : Option (List Char)) (rest : List Char)
    (hf : goodArg f = true) (hl : goodArg l = true)
    (ha : ∀ u, a = some u → goodArg u = true) :
    scanSortname (citationChars f l a ++ rest) =
      (f, l, a.map (fun u => '|' :: u)) :: scanSortname rest := by
  obtain ⟨z, hz⟩ : ∃ z, citationChars f l a ++ rest = '\x7b' :: z := by
    cases a <;> exact ⟨_, rfl⟩
  have hlen : (citationChars f l a).length + rest.length = z.length + 1 := by
    have := congrArg List.length hz
    simpa using this
  have hcit : 1 ≤ (citationChars f l a).length := by
    cases a <;> simp [citationChars, sortnameLit]
  have hrest : rest.length ≤ z.length := by omega
  rw [scanSortname, hz]
  simp only [List.length_cons, scanGo]
  rw [← hz, tryMatchAt_citation f l a rest hf hl ha]
  change (f, l, a.map (fun u => '|' :: u)) :: scanGo z.length rest =
    (f, l, a.map (fun u => '|' :: u)) :: scanSortname rest
  rw [scanGo_congr z.length rest.length rest hrest (Nat.le_refl _)]
  rfl

theorem wfCitationRest_not_brace (c : Char) (cs : List Char) (h : c ≠ '\x7b') :
    wfCitationRest (c :: cs) = none := by
  simp [wfCitationRest, stripLit_sortname_none c cs h]

theorem countWFGo_congr :
    ∀ (n m : Nat) (s : List Char), s.length ≤ n → s.length ≤ m → countWFGo n s = countWFGo m s := by
  intro n
  induction n with
  | zero =>
    intro m s h1 _
    have hs : s = [] := List.length_eq_zero.mp (Nat.le_zero.mp h1)
    subst hs
    cases m <;> rfl
  | succ k ih =>
    intro m s h1 h2
    cases s with
    | nil => cases m <;> rfl
    | cons c cs =>
      cases m with
      | zero => simp at h2
      | succ m' =>
        simp only [countWFGo]
        cases ht : wfCitationRest (c :: cs) with
        | none =>
          exact ih m' cs (by simpa using Nat.le_of_succ_le_succ h1)
            (by simpa using Nat.le_of_succ_le_succ h2)
        | some rest =>
          have hlen := wfCitationRest_length (c :: cs) rest ht
          have hk : rest.length ≤ k := by
            simp only [List.length_cons] at hlen h1
            omega
          have hm' : rest.length ≤ m' := by
            simp only [List.length_cons] at hlen h2
            omega
          exact congrArg (fun x => 1 + x) (ih m' rest hk hm')

theorem countWFGo_gap :
    ∀ (g : List Char) (n : Nat) (rest : List Char), noBrace g = true →
      countWFGo (g.length + n) (g ++ rest) = countWFGo n rest := by
  intro g
  induction g with
  | nil => intro n rest _; simp
  | cons c g' ih =>
    intro n rest hg
    obtain ⟨hc, hg'⟩ := (noBrace_cons c g').mp hg
    have hlen : (c :: g').length + n = (g'.length + n) + 1 := by
      simp [Nat.add_right_comm]
    rw [hlen]
    show countWFGo ((g'.length + n) + 1) (c :: (g' ++ rest)) = countWFGo n rest
    simp only [countWFGo, wfCitationRest_not_brace c (g' ++ rest) hc]
    exact ih n rest hg'

theorem countWF_gap (g rest : List Char) (hg : noBrace g = true) :
    countWF (g ++ rest) = countWF rest := by
  rw [countWF, List.length_append, countWFGo_gap g rest.length rest hg]
  rfl

theorem dropWhile_arg_append :
    ∀ (f : List Char) (c : Char) (x : List Char), goodArg f = true → isArgChar c = false →
      (f ++ c :: x).dropWhile isArgChar = c :: x := by
  intro f
  induction f with
  | nil => intro c x _ hc; simp [List.dropWhile_cons, hc]
  | cons a t ih =>
    intro c x hf hc
    obtain ⟨ha, ht⟩ := (goodArg_cons a t).mp hf
    simp [List.dropWhile_cons, ha, ih c x ht hc]

theorem wfCitationRest_citation (f l : List Char) (a : Option (List Char)) (rest : List Char)
    (hf : goodArg f = true) (hl : goodArg l = true)
    (ha : ∀ u, a = some u → goodArg u = true) :
    wfCitationRest (citationChars f l a ++ rest) = some rest := by
  cases a with
  | none =>
    have hs : citationChars f l none ++ rest =
        sortnameLit ++ (f ++ '|' :: (l ++ '\x7d' :: '\x7d' :: rest)) := by
      simp [citationChars, List.append_assoc]
    rw [hs]
    simp [wfCitationRest, stripLit_append, splitArg_snd,
      dropWhile_arg_append f '|' _ hf rfl,
      dropWhile_arg_append l '\x7d' _ hl rfl, wfClose]
  | some t =>
    have hs : citationChars f l (some t) ++ rest =
        sortnameLit ++ (f ++ '|' :: (l ++ '|' :: (t ++ '\x7d' :: '\x7d' :: rest))) := by
      simp [citationChars, List.append_assoc]
    rw [hs]
    simp [wfCitationRest, stripLit_append, splitArg_snd,
      dropWhile_arg_append f '|' _ hf rfl,
      dropWhile_arg_append l '|' _ hl rfl,
      dropWhile_arg_append t '\x7d' _ (ha t rfl) rfl, wfClose]

theorem countWF_citation (f l : List Char) (a : Option (List Char)) (rest : List Char)
    (hf : goodArg f = true) (hl : goodArg l = true)
    (ha : ∀ u, a = some u → goodArg u = true) :
    countWF (citationChars f l a ++ rest) = 1 + countWF rest := by
  obtain ⟨z, hz⟩ : ∃ z, citationChars f l a ++ rest = '\x7b' :: z := by
    cases a <;> exact ⟨_, rfl⟩
  have hlen : (citationChars f l a).length + rest.length = z.length + 1 := by
    have := congrArg List.length hz
    simpa using this
  have hcit : 1 ≤ (citationChars f l a).length := by
    cases a <;> simp [citationChars, sortnameLit]
  have hrest : rest.length ≤ z.length := by omega
  rw [countWF, hz]
  simp only [List.length_cons, countWFGo]
  rw [← hz, wfCitationRest_citation f l a rest hf hl ha]
  change 1 + countWFGo z.length rest = _
  rw [countWFGo_congr z.length rest.length rest hrest (Nat.le_refl _)]
  rfl

/-! ## C6: the Roster Extractor over full section texts -/

/-- C6 (amended): over any section text that decomposes into correctly
formed citations separated by brace-free gaps, the extractor returns
exactly the citations' triples, in document order, duplicates
permitted; the count of matches equals the count of correctly formed
citations the text contains. -/
theorem c6_amended_roster_extraction
    (items : List (List Char × List Char × List Char × Option (List Char)))
    (gN : List Char)
    (hg : ∀ it ∈ items, noBrace it.1 = true)
    (hf : ∀ it ∈ items, goodArg it.2.1 = true)
    (hl : ∀ it ∈ items, goodArg it.2.2.1 = true)
    (ha : ∀ it ∈ items, ∀ u, it.2.2.2 = some u → goodArg u = true)
    (hgN : noBrace gN = true) :
    scanSortname (assembleText items gN) =
      items.map (fun it => (it.2.1, it.2.2.1, it.2.2.2.map (fun u => '|' :: u))) ∧
    countWF (assembleText items gN) = items.length := by
  induction items with
  | nil =>
    constructor
    · have h := scanSortname_gap gN [] hgN
      rw [List.append_nil] at h
      simpa using h
    · have h := countWF_gap gN [] hgN
      rw [List.append_nil] at h
      simpa using h
  | cons it rest ih =>
    have hgr : ∀ x ∈ rest, noBrace x.1 = true := fun x hx => hg x (by simp [hx])
    have hfr : ∀ x ∈ rest, goodArg x.2.1 = true := fun x hx => hf x (by simp [hx])
    have hlr : ∀ x ∈ rest, goodArg x.2.2.1 = true := fun x hx => hl x (by simp [hx])
    have har : ∀ x ∈ rest, ∀ u, x.2.2.2 = some u → goodArg u = true :=
      fun x hx => ha x (by simp [hx])
    obtain ⟨ihs, ihc⟩ := ih hgr hfr hlr har
    have hg1 : noBrace it.1 = true := hg it (by simp)
    have hf1 : goodArg it.2.1 = true := hf it (by simp)
    have hl1 : goodArg it.2.2.1 = true := hl it (by simp)
    have ha1 : ∀ u, it.2.2.2 = some u → goodArg u = true := ha it (by simp)
    constructor
    · simp only [assembleText, List.append_assoc]
      rw [scanSortname_gap it.1 _ hg1,
        scanSortname_citation it.2.1 it.2.2.1 it.2.2.2 _ hf1 hl1 ha1, ihs]
      rfl
    · simp only [assembleText, List.append_assoc]
      rw [countWF_gap it.1 _ hg1,
        countWF_citation it.2.1 it.2.2.1 it.2.2.2 _ hf1 hl1 ha1, ihc]
      simp [Nat.add_comm]

/-- The extractor on a concrete two-citation section text. -/
theorem c6_amended_witness :
    scanSortname (assembleText
        [("intro ".data, "Jane".data, "Doe".data, none),
         (" mid ".data, "A".data, "B".data, some "A. B".data)] " outro".data) =
      [("Jane".data, "Doe".data, none), ("A".data, "B".data, some "|A. B".data)] ∧
    countWF (assembleText
        [("intro ".data, "Jane".data, "Doe".data, none),
         (" mid ".data, "A".data, "B".data, some "A. B".data)] " outro".data) = 2 := by
  have h := c6_amended_roster_extraction
    [("intro ".data, "Jane".data, "Doe".data, none),
     (" mid ".data, "A".data, "B".data, some "A. B".data)] " outro".data
    (by decide) (by decide) (by decide) (by decide) (by decide)
  exact ⟨h.1, h.2⟩

/-- C6 counterexample: a text holding two malformed citations (each
missing its second argument) and hence zero correctly formed ones, on
which `findall` nevertheless produces one (garbled) triple: the two
malformed citations combine into a single match. -/
theorem c6_counterexample :
    countWF ("\x7b\x7bsortname|x\x7d\x7d\x7b\x7bsortname|y\x7d\x7d".data) = 0 ∧
    findallSortname "\x7b\x7bsortname|x\x7d\x7d\x7b\x7bsortname|y\x7d\x7d" =
      [("x\x7d\x7d\x7b\x7bsortname", "y", "")] :=
  ⟨by decide, by decide⟩

/-! ## C7: the end-to-end single-member scenario -/

/-- C7: on the roster section text `{{sortname|Jane|Doe}}` the
extractor yields the single triple whose article-override group did not
participate (`findall` renders it `""`), and the Orchestrator derives
the article title `"Jane Doe"` and the output file name
`us_congress_portrait_doe_jane.jpg`. -/
theorem c7_end_to_end :
    scanSortname "\x7b\x7bsortname|Jane|Doe\x7d\x7d".data =
      [("Jane".data, "Doe".data, none)] ∧
    findallSortname "\x7b\x7bsortname|Jane|Doe\x7d\x7d" = [("Jane", "Doe", "")] ∧
    deriveArticleTitle "Jane" "Doe" "" = "Jane Doe" ∧
    imgFileName "Jane" "Doe" = "us_congress_portrait_doe_jane.jpg" :=
  ⟨by decide, by decide, by decide, by decide⟩

/-! ## C10: the third group's representation and the pipe stripping -/

theorem matchAfterSecondPipe_article :
    ∀ (s : List Char) (q : List Char × Option (List Char) × List Char) (u : List Char),
      matchAfterSecondPipe s = some q → q.2.1 = some u → ∃ v, u = '|' :: v := by
  intro s
  induction s with
  | nil => intro q u h _; simp [matchAfterSecondPipe] at h
  | cons c cs ih =>
    intro q u h hu
    simp only [matchAfterSecondPipe] at h
    by_cases h1 : c = '|'
    · rw [if_pos h1] at h
      cases hq : findCloseBraces cs with
      | some p =>
        rw [hq] at h
        cases h
        simp only [Option.some.injEq] at hu
        exact ⟨p.1, hu.symm⟩
      | none =>
        rw [hq] at h
        cases hm : matchAfterSecondPipe cs with
        | none => rw [hm] at h; exact absurd h (by simp)
        | some m =>
          rw [hm] at h
          cases h
          exact ih m u hm (by simpa using hu)
    · rw [if_neg h1] at h
      by_cases h2 : c = '\x7d'
      · rw [if_pos h2] at h
        cases cs with
        | nil => exact absurd h (by simp)
        | cons c2 rest =>
          dsimp only at h
          by_cases h3 : c2 = '\x7d'
          · rw [if_pos h3] at h
            cases h
            simp at hu
          · rw [if_neg h3] at h
            cases hm : matchAfterSecondPipe (c2 :: rest) with
            | none => rw [hm] at h; exact absurd h (by simp)
            | some m =>
              rw [hm] at h
              cases h
              exact ih m u hm (by simpa using hu)
      · rw [if_neg h2] at h
        by_cases h4 : c = '\n'
        · rw [if_pos h4] at h; exact absurd h (by simp)
        · rw [if_neg h4] at h
          cases hm : matchAfterSecondPipe cs with
          | none => rw [hm] at h; exact absurd h (by simp)
          | some m =>
            rw [hm] at h
            cases h
            exact ih m u hm (by simpa using hu)

theorem tryMatchAt_article (s : List Char)
    (q : List Char × List Char × Option (List Char) × List Char) (u : List Char)
    (h : tryMatchAt s = some q) (hu : q.2.2.1 = some u) : ∃ v, u = '|' :: v := by
  simp only [tryMatchAt] at h
  cases h0 : stripLit sortnameLit s with
  | none => rw [h0] at h; exact absurd h (by simp)
  | some r0 =>
    rw [h0] at h
    dsimp only at h
    cases h1 : takeUntilPipe r0 with
    | none => rw [h1] at h; exact absurd h (by simp)
    | some fp =>
      rw [h1] at h
      dsimp only at h
      cases h2 : matchAfterSecondPipe fp.2 with
      | none => rw [h2] at h; exact absurd h (by simp)
      | some lar =>
        rw [h2] at h
        cases h
        exact matchAfterSecondPipe_article fp.2 lar u h2 (by simpa using hu)

theorem scanGo_article :
    ∀ (n : Nat) (s f l u : List Char),
      (f, l, some u) ∈ scanGo n s → ∃ v, u = '|' :: v := by
  intro n
  induction n with
  | zero => intro s f l u h; simp [scanGo] at h
  | succ k ih =>
    intro s f l u h
    cases s with
    | nil => simp [scanGo] at h
    | cons c cs =>
      simp only [scanGo] at h
      cases ht : tryMatchAt (c :: cs) with
      | none =>
        rw [ht] at h
        exact ih cs f l u h
      | some r =>
        rw [ht] at h
        dsimp only at h
        rcases List.mem_cons.mp h with heq | hmem
        · have hcomp : some u = r.2.2.1 := congrArg (fun t => t.2.2) heq
          exact tryMatchAt_article (c :: cs) r u ht hcomp.symm
        · exact ih r.2.2.2 f l u hmem

/-- C10: every triple the pattern yields carries, as its third
component, either the non-participating group (rendered `""` by
`findall`) or a string beginning with the literal `|` separator, which
the Orchestrator strips entirely (all leading pipes) to obtain the
article title. -/
theorem c10_article_override (s : String) (f l : List Char) (a : Option (List Char))
    (h : (f, l, a) ∈ scanSortname s.data) :
    (a = none → (String.mk f, String.mk l, "") ∈ findallSortname s) ∧
    (∀ u, a = some u →
      (∃ v, u = '|' :: v) ∧
      (String.mk f, String.mk l, String.mk u) ∈ findallSortname s ∧
      deriveArticleTitle (String.mk f) (String.mk l) (String.mk u) =
        String.mk (u.dropWhile (fun c => c = '|'))) := by
  constructor
  · intro hn
    subst hn
    rw [findallSortname]
    exact List.mem_map_of_mem _ h
  · intro u hu
    subst hu
    obtain ⟨v, hv⟩ := scanGo_article s.data.length s.data f l u h
    refine ⟨⟨v, hv⟩, ?_, ?_⟩
    · rw [findallSortname]
      exact List.mem_map_of_mem _ h
    · have hne : String.mk u ≠ "" := by
        subst hv
        intro hcon
        have := congrArg String.data hcon
        simp at this
      rw [deriveArticleTitle, if_pos hne]

/-- The explicit-override citation of the specification: the third
group comes back as `"|Jane Q. Doe"` and the Orchestrator's
`lstrip('|')` turns it into the article title `"Jane Q. Doe"`. -/
theorem c10_witness :
    deriveArticleTitle "Jane" "Doe" "|Jane Q. Doe" = "Jane Q. Doe" ∧
    ("Jane", "Doe", "|Jane Q. Doe") ∈
      findallSortname "\x7b\x7bsortname|Jane|Doe|Jane Q. Doe\x7d\x7d" := by
  have h := (c10_article_override "\x7b\x7bsortname|Jane|Doe|Jane Q. Doe\x7d\x7d"
    "Jane".data "Doe".data (some "|Jane Q. Doe".data) (by decide)).2 "|Jane Q. Doe".data rfl
  exact ⟨h.2.2, h.2.1⟩

end GetPortraits
